import Mathlib

/-!
# Verification of the data-structure engines of the visualizer repository

Shallow embedding of the Python-side data-structure engines of the
repository (`src/visualizer/graph_ui.py`, `src/visualizer/bst_ui.py`,
`src/visualizer/linkedlist_ui.py`): the directed weighted graph kept as an
edge list, the binary search tree, the singly linked list, and the
deterministic layout code, together with proofs of the specification's
claims about them.

Conventions: Python `int` values become `Int` (weights, stored data) or
`Nat` (vertex ids, which the UI validates to lie in `[0, num_vertices)`
before any engine operation runs); Python lists become `List`; `None`
becomes an explicit empty constructor; operations that bail out with an
error dialog and leave the structure unchanged return `Option`.
-/

namespace Visualizer

/-! ## Graph engine (`graph_ui.py`)

The Python class keeps `num_vertices : int` and `edges : list of
(src, dest, weight)` triples.  `add_edge` and `remove_edge` first check the
vertex bounds (showing an error dialog and leaving the state unchanged on
failure) and then mutate the Python edge list exactly as modelled below. -/

/-- An edge as stored in the Python list `self.edges`: `(src, dest, weight)`. -/
abbrev Edge : Type := Nat × Nat × Int

/-- The graph state: `self.num_vertices` and `self.edges`. -/
structure Graph where
  numVertices : Nat
  edges : List Edge
deriving DecidableEq, Repr

/-- `create_graph` with a positive vertex count: fresh empty edge list
(`self.num_vertices = num_vertices; self.edges = []`). -/
def create_graph (n : Nat) : Graph := ⟨n, []⟩

/-- Core of `add_edge` (graph_ui.py lines 256-263), after the bounds check:
`edge = (src, dest, weight); if edge not in self.edges: self.edges.append(edge)`.
The duplicate test is on the whole triple, weight included. -/
def addEdgeList (edges : List Edge) (src dst : Nat) (w : Int) : List Edge :=
  if (src, dst, w) ∈ edges then edges else edges ++ [(src, dst, w)]

/-- `add_edge(self, src, dest, weight)`: bounds check
(`src < 0 or src >= num_vertices or dest < 0 or dest >= num_vertices` aborts
without touching the state; `src, dst : Nat` makes the lower bounds hold by
typing), then the edge-list update. -/
def add_edge (g : Graph) (src dst : Nat) (w : Int) : Graph :=
  if src < g.numVertices ∧ dst < g.numVertices then
    { g with edges := addEdgeList g.edges src dst w }
  else g

/-- Core of `remove_edge` (graph_ui.py lines 306-314), after the bounds
check: scan `self.edges` for the first edge with `edge[0] == src and
edge[1] == dest` (any weight), then `self.edges.remove(edge_to_remove)`,
which deletes the first occurrence equal to that triple; if no edge
matches, the list is left unchanged and no error is raised. -/
def removeEdgeList (edges : List Edge) (src dst : Nat) : List Edge :=
  match edges.find? (fun e => e.1 == src && e.2.1 == dst) with
  | some e => edges.erase e
  | none => edges

/-- `remove_edge(self, src, dest)`: bounds check, then the edge-list scan. -/
def remove_edge (g : Graph) (src dst : Nat) : Graph :=
  if src < g.numVertices ∧ dst < g.numVertices then
    { g with edges := removeEdgeList g.edges src dst }
  else g

/-- The graph states reachable from `create_graph` by `add_edge` /
`remove_edge` calls (the only mutations the UI performs besides clearing,
which returns to a fresh state). -/
inductive ReachableGraph : Graph → Prop where
  | create (n : Nat) : ReachableGraph (create_graph n)
  | add (g : Graph) (src dst : Nat) (w : Int) :
      ReachableGraph g → ReachableGraph (add_edge g src dst w)
  | remove (g : Graph) (src dst : Nat) :
      ReachableGraph g → ReachableGraph (remove_edge g src dst)

/-- The Boolean match predicate used by `remove_edge`:
`edge[0] == src and edge[1] == dest`. -/
def edgeMatch (s d : Nat) (e : Edge) : Bool := e.1 == s && e.2.1 == d

theorem edgeMatch_eq_true {s d : Nat} {e : Edge} :
    edgeMatch s d e = true ↔ e.1 = s ∧ e.2.1 = d := by
  simp [edgeMatch]

theorem removeEdgeList_eq_eraseP (l : List Edge) (s d : Nat) :
    removeEdgeList l s d = l.eraseP (edgeMatch s d) := by
  induction l with
  | nil => simp [removeEdgeList]
  | cons e l ih =>
    unfold removeEdgeList
    by_cases hp : edgeMatch s d e = true
    · rw [List.find?_cons_of_pos _ (by simpa [edgeMatch] using hp),
        List.eraseP_cons_of_pos hp]
      exact List.erase_cons_head e l
    · rw [List.find?_cons_of_neg _ (by simpa [edgeMatch] using hp),
        List.eraseP_cons_of_neg hp]
      cases hf : l.find? (fun e => e.1 == s && e.2.1 == d) with
      | none =>
        have hl : l = List.eraseP (edgeMatch s d) l := by
          rw [← ih, removeEdgeList, hf]
        exact congrArg (e :: ·) hl
      | some x =>
        have hx : edgeMatch s d x = true := by
          simpa [edgeMatch] using List.find?_some hf
        have hex : ¬(e == x) = true := by
          simp only [beq_iff_eq]
          exact fun h => hp (h ▸ hx)
        show (e :: l).erase x = e :: List.eraseP (edgeMatch s d) l
        rw [List.erase_cons_tail hex]
        have hl : removeEdgeList l s d = l.erase x := by
          rw [removeEdgeList, hf]
        rw [← ih, hl]

theorem removeEdgeList_of_no_match {l : List Edge} {s d : Nat}
    (h : ∀ e ∈ l, ¬(e.1 = s ∧ e.2.1 = d)) : removeEdgeList l s d = l := by
  rw [removeEdgeList_eq_eraseP]
  apply List.eraseP_of_forall_not
  intro e he
  simpa [edgeMatch] using h e he

theorem removeEdgeList_first_match (l₁ l₂ : List Edge) (e : Edge) (s d : Nat)
    (h₁ : ∀ e' ∈ l₁, ¬(e'.1 = s ∧ e'.2.1 = d)) (hs : e.1 = s) (hd : e.2.1 = d) :
    removeEdgeList (l₁ ++ e :: l₂) s d = l₁ ++ l₂ := by
  rw [removeEdgeList_eq_eraseP]
  rw [List.eraseP_append_right _ (fun e' he' => by simpa [edgeMatch] using h₁ e' he')]
  rw [List.eraseP_cons_of_pos (by simp [edgeMatch, hs, hd])]

/-- `addEdgeList` preserves the absence of duplicate triples. -/
theorem addEdgeList_nodup {l : List Edge} (h : l.Nodup) (s d : Nat) (w : Int) :
    (addEdgeList l s d w).Nodup := by
  unfold addEdgeList
  split
  · exact h
  · next hmem => simp [List.nodup_append, h, hmem]

/-- `removeEdgeList` yields a sublist, so it too preserves `Nodup`. -/
theorem removeEdgeList_nodup {l : List Edge} (h : l.Nodup) (s d : Nat) :
    (removeEdgeList l s d).Nodup := by
  rw [removeEdgeList_eq_eraseP]
  exact h.sublist (List.eraseP_sublist l)

theorem reachable_nodup {g : Graph} (h : ReachableGraph g) : g.edges.Nodup := by
  induction h with
  | create n => simp [create_graph]
  | add g src dst w _ ih =>
    unfold add_edge
    split
    · exact addEdgeList_nodup ih src dst w
    · exact ih
  | remove g src dst _ ih =>
    unfold remove_edge
    split
    · exact removeEdgeList_nodup ih src dst
    · exact ih

theorem add_edge_mem_noop {g : Graph} {s d : Nat} {w : Int}
    (h : (s, d, w) ∈ g.edges) : add_edge g s d w = g := by
  unfold add_edge addEdgeList
  split
  · simp [h]
  · rfl

theorem add_edge_append {g : Graph} {s d : Nat} {w : Int}
    (hs : s < g.numVertices) (hd : d < g.numVertices)
    (h : (s, d, w) ∉ g.edges) :
    (add_edge g s d w).edges = g.edges ++ [(s, d, w)] := by
  simp [add_edge, addEdgeList, hs, hd, h]

/-! ### Claims C1, C2, C10 -/

/-- C1 (counterexample): starting from a freshly created 2-vertex graph,
two valid `add_edge` calls with the same (source, destination) pair but
different weights produce a reachable state whose edge list holds two
edges for the ordered pair (0, 1) — the edge set does not keep at most one
edge per ordered pair, and re-adding with a different weight neither
replaces nor deduplicates. -/
theorem claim1_counterexample :
    add_edge (add_edge (create_graph 2) 0 1 5) 0 1 7 =
      { numVertices := 2, edges := [(0, 1, 5), (0, 1, 7)] } ∧
    ((add_edge (add_edge (create_graph 2) 0 1 5) 0 1 7).edges.countP
      (fun e => e.1 == 0 && e.2.1 == 1)) = 2 := by
  decide

/-- C1 (amended): in every reachable graph state the edge list contains at
most one edge per (source, destination, weight) triple (it is
duplicate-free); adding an edge identical to an existing one (same source,
destination and weight) is a no-op; and adding a valid edge whose exact
triple is absent — in particular re-adding a pair with a different
weight — appends a second edge rather than replacing. -/
theorem claim1_edge_dedup_amended :
    (∀ g : Graph, ReachableGraph g → g.edges.Nodup) ∧
    (∀ (g : Graph) (s d : Nat) (w : Int),
      (s, d, w) ∈ g.edges → add_edge g s d w = g) ∧
    (∀ (g : Graph) (s d : Nat) (w : Int),
      s < g.numVertices → d < g.numVertices → (s, d, w) ∉ g.edges →
      (add_edge g s d w).edges = g.edges ++ [(s, d, w)]) :=
  ⟨fun _ h => reachable_nodup h,
   fun _ _ _ _ h => add_edge_mem_noop h,
   fun _ _ _ _ hs hd h => add_edge_append hs hd h⟩

theorem claim1_witness :
    ReachableGraph (add_edge (create_graph 2) 0 1 5) ∧
    (add_edge (create_graph 2) 0 1 5).edges.Nodup ∧
    add_edge { numVertices := 2, edges := [(0, 1, 5)] } 0 1 5 =
      { numVertices := 2, edges := [(0, 1, 5)] } ∧
    (add_edge { numVertices := 2, edges := [(0, 1, 5)] } 0 1 7).edges =
      [(0, 1, 5), (0, 1, 7)] :=
  ⟨.add _ _ _ _ (.create 2),
   claim1_edge_dedup_amended.1 _ (.add _ _ _ _ (.create 2)),
   claim1_edge_dedup_amended.2.1 _ 0 1 5 (by decide),
   claim1_edge_dedup_amended.2.2 _ 0 1 7 (by decide) (by decide) (by decide)⟩

/-- C2 (counterexample): on the reachable state with edge list `[(0,1,5)]`,
`add_edge 0 1 5` is a no-op (identical triple), so the following
`remove_edge 0 1` deletes the pre-existing edge: the resulting edge set is
empty and differs from the pre-add edge set. -/
theorem claim2_counterexample :
    (remove_edge (add_edge { numVertices := 2, edges := [(0, 1, 5)] } 0 1 5)
        0 1).edges = [] ∧
    ReachableGraph { numVertices := 2, edges := [(0, 1, 5)] } ∧
    ([] : List Edge) ≠ [(0, 1, 5)] := by
  refine ⟨by decide, ?_, by decide⟩
  have h : ReachableGraph (add_edge (create_graph 2) 0 1 5) :=
    .add _ _ _ _ (.create 2)
  simpa using h

/-- C2 (amended): for valid `src`, `dst`, if the pre-add edge set contains
no edge with that (source, destination) pair, then `add_edge` immediately
followed by `remove_edge` on the same pair restores the graph exactly.
(The claim fails when an edge with that pair is already present: the add
is then a no-op or an append, and the remove deletes the first stored
match — see the counterexample.) -/
theorem claim2_add_remove_roundtrip :
    ∀ (g : Graph) (s d : Nat) (w : Int),
      s < g.numVertices → d < g.numVertices →
      (∀ e ∈ g.edges, ¬(e.1 = s ∧ e.2.1 = d)) →
      remove_edge (add_edge g s d w) s d = g := by
  intro g s d w hs hd hno
  have hmem : (s, d, w) ∉ g.edges := fun h => hno _ h ⟨rfl, rfl⟩
  have hadd : add_edge g s d w =
      { g with edges := g.edges ++ [(s, d, w)] } := by
    simp [add_edge, addEdgeList, hs, hd, hmem]
  rw [hadd]
  unfold remove_edge
  rw [if_pos ⟨hs, hd⟩]
  have : removeEdgeList (g.edges ++ [(s, d, w)]) s d = g.edges :=
    (removeEdgeList_first_match g.edges [] (s, d, w) s d hno rfl rfl).trans
      (by simp)
  simp [this]

theorem claim2_witness :
    remove_edge (add_edge { numVertices := 2, edges := [(1, 0, 3)] } 0 1 5)
      0 1 = { numVertices := 2, edges := [(1, 0, 3)] } :=
  claim2_add_remove_roundtrip _ 0 1 5 (by decide) (by decide) (by decide)

/-- C10 (confirmed): `remove_edge`'s edge-list scan removes exactly the
first stored edge matching (src, dst) regardless of weight — it equals
`List.eraseP` with the match predicate; when nothing matches the list is
unchanged (and no error occurs, the function is total); and when the list
splits as `l₁ ++ e :: l₂` with no match in `l₁` and `e` matching, exactly
`e` is removed, so all later edges with the same pair survive. -/
theorem claim10_remove_first_only :
    (∀ (l : List Edge) (s d : Nat),
      removeEdgeList l s d = l.eraseP (edgeMatch s d)) ∧
    (∀ (l : List Edge) (s d : Nat),
      (∀ e ∈ l, ¬(e.1 = s ∧ e.2.1 = d)) → removeEdgeList l s d = l) ∧
    (∀ (l₁ l₂ : List Edge) (e : Edge) (s d : Nat),
      (∀ e' ∈ l₁, ¬(e'.1 = s ∧ e'.2.1 = d)) → e.1 = s → e.2.1 = d →
      removeEdgeList (l₁ ++ e :: l₂) s d = l₁ ++ l₂) :=
  ⟨removeEdgeList_eq_eraseP,
   fun _ _ _ h => removeEdgeList_of_no_match h,
   fun _ _ _ _ _ h hs hd => removeEdgeList_first_match _ _ _ _ _ h hs hd⟩

theorem claim10_witness :
    removeEdgeList [(2, 2, 9), (0, 1, 5), (0, 1, 7)] 0 1 =
      [(2, 2, 9), (0, 1, 7)] := by
  have h := claim10_remove_first_only.2.2 [(2, 2, 9)] [(0, 1, 7)] (0, 1, 5)
    0 1 (by decide) rfl rfl
  simpa using h

/-! ## BST engine (`bst_ui.py`)

The Python class keeps `self.root`, a chain of `BSTNode(data, left, right)`
objects with `None` for missing children. -/

/-- `BSTNode` chains with `None` as `leaf`. -/
inductive BTree where
  | leaf : BTree
  | node : BTree → Int → BTree → BTree
deriving DecidableEq, Repr

namespace BTree

/-- `insert_python(node, value)` (bst_ui.py lines 211-230): recursive
comparison descent; a new leaf at the first `None` slot; equal value
leaves the tree unchanged. -/
def insert_python : BTree → Int → BTree
  | leaf, v => node leaf v leaf
  | node l d r, v =>
    if v < d then node (insert_python l v) d r
    else if v > d then node l d (insert_python r v)
    else node l d r

/-- `_inorder_python` (bst_ui.py lines 429-440): left, visit, right. -/
def inorder : BTree → List Int
  | leaf => []
  | node l d r => inorder l ++ d :: inorder r

/-- `find_min(node)` (bst_ui.py lines 286-290): follow `left` links while
present (only ever called on a non-empty subtree; the `leaf` result is
unreachable there). -/
def find_min : BTree → Int
  | leaf => 0
  | node l d _ =>
    match l with
    | leaf => d
    | node a b c => find_min (node a b c)

/-- `delete_python(node, value)` (bst_ui.py lines 254-290): comparison
descent; at the target, splice the single child (checking `left is None`
first), or for two children copy the in-order successor
(`find_min(node.right)`) into the node and recursively delete it from the
right subtree. -/
def delete_python : BTree → Int → BTree
  | leaf, _ => leaf
  | node l d r, v =>
    if v < d then node (delete_python l v) d r
    else if v > d then node l d (delete_python r v)
    else
      match l, r with
      | leaf, _ => r
      | _, leaf => l
      | _, _ => node l (find_min r) (delete_python r (find_min r))

/-- `search_python(node, value)` (bst_ui.py lines 314-333). -/
def search_python : BTree → Int → Bool
  | leaf, _ => false
  | node l d r, v =>
    if v = d then true
    else if v < d then search_python l v
    else search_python r v

/-- `insert_node` repeated over a list of input values, starting from the
empty tree held in `self.root`. -/
def insertList (t : BTree) (xs : List Int) : BTree :=
  xs.foldl insert_python t

/-- The BST ordering invariant of the data model: at every node, all
values of the left subtree are smaller and all values of the right subtree
larger. -/
inductive IsBST : BTree → Prop where
  | leaf : IsBST leaf
  | node {l r : BTree} {d : Int} :
      IsBST l → IsBST r →
      (∀ x ∈ inorder l, x < d) → (∀ y ∈ inorder r, d < y) →
      IsBST (node l d r)

theorem mem_inorder_insert (t : BTree) (x v : Int) :
    v ∈ inorder (insert_python t x) ↔ v = x ∨ v ∈ inorder t := by
  induction t with
  | leaf => simp [insert_python, inorder]
  | node l d r ihl ihr =>
    by_cases h1 : x < d
    · simp only [insert_python, if_pos h1, inorder, List.mem_append,
        List.mem_cons, ihl]
      tauto
    · by_cases h2 : x > d
      · simp only [insert_python, if_neg h1, if_pos h2, inorder,
          List.mem_append, List.mem_cons, ihr]
        tauto
      · have hx : x = d := le_antisymm (not_lt.mp h2) (not_lt.mp h1)
        subst hx
        simp only [insert_python, if_neg h1, if_neg h2, inorder,
          List.mem_append, List.mem_cons]
        tauto

theorem insert_isBST : ∀ {t : BTree}, IsBST t → ∀ x, IsBST (insert_python t x) := by
  intro t
  induction t with
  | leaf =>
    intro _ x
    exact .node .leaf .leaf (by simp [inorder]) (by simp [inorder])
  | node l d r ihl ihr =>
    intro h x
    cases h with
    | node hl hr hbl hbr =>
      by_cases h1 : x < d
      · simp only [insert_python, if_pos h1]
        refine .node (ihl hl x) hr ?_ hbr
        intro y hy
        rcases (mem_inorder_insert l x y).mp hy with rfl | hm
        · exact h1
        · exact hbl y hm
      · by_cases h2 : x > d
        · simp only [insert_python, if_neg h1, if_pos h2]
          refine .node hl (ihr hr x) hbl ?_
          intro y hy
          rcases (mem_inorder_insert r x y).mp hy with rfl | hm
          · exact h2
          · exact hbr y hm
        · simp only [insert_python, if_neg h1, if_neg h2]
          exact .node hl hr hbl hbr

theorem inorder_pairwise {t : BTree} (h : IsBST t) :
    (inorder t).Pairwise (· < ·) := by
  induction h with
  | leaf => simp [inorder]
  | node hl hr hbl hbr ihl ihr =>
    simp only [inorder]
    rw [List.pairwise_append]
    refine ⟨ihl, ?_, ?_⟩
    · rw [List.pairwise_cons]
      exact ⟨hbr, ihr⟩
    · intro a ha b hb
      rcases List.mem_cons.mp hb with rfl | hb
      · exact hbl a ha
      · exact lt_trans (hbl a ha) (hbr b hb)

theorem insertList_isBST : ∀ (xs : List Int) {t : BTree}, IsBST t →
    IsBST (insertList t xs) := by
  intro xs
  induction xs with
  | nil => intro t h; exact h
  | cons x xs ih =>
    intro t h
    exact ih (insert_isBST h x)

theorem mem_insertList : ∀ (xs : List Int) (t : BTree) (v : Int),
    v ∈ inorder (insertList t xs) ↔ v ∈ inorder t ∨ v ∈ xs := by
  intro xs
  induction xs with
  | nil => simp [insertList]
  | cons x xs ih =>
    intro t v
    have : insertList t (x :: xs) = insertList (insert_python t x) xs := rfl
    rw [this, ih, mem_inorder_insert]
    simp only [List.mem_cons]
    tauto

theorem inorder_leaf : inorder leaf = ([] : List Int) := rfl

theorem inorder_node (l : BTree) (d : Int) (r : BTree) :
    inorder (node l d r) = inorder l ++ d :: inorder r := rfl

theorem find_min_node_leaf (d : Int) (r : BTree) :
    find_min (node leaf d r) = d := rfl

theorem find_min_node_node (a : BTree) (b : Int) (c : BTree) (d : Int)
    (r : BTree) :
    find_min (node (node a b c) d r) = find_min (node a b c) := rfl

theorem delete_eq_lt (l r : BTree) (d x : Int) (h : x < d) :
    delete_python (node l d r) x = node (delete_python l x) d r := by
  simp only [delete_python]
  rw [if_pos h]

theorem delete_eq_gt (l r : BTree) (d x : Int) (h : d < x) :
    delete_python (node l d r) x = node l d (delete_python r x) := by
  simp only [delete_python]
  rw [if_neg (asymm h), if_pos h]

theorem delete_eq_leaf_left (r : BTree) (d : Int) :
    delete_python (node leaf d r) d = r := by
  simp only [delete_python]
  rw [if_neg (lt_irrefl d), if_neg (lt_irrefl d)]

theorem delete_eq_leaf_right (l : BTree) (d : Int) (h : l ≠ leaf) :
    delete_python (node l d leaf) d = l := by
  simp only [delete_python]
  rw [if_neg (lt_irrefl d), if_neg (lt_irrefl d)]

theorem delete_eq_two (l r : BTree) (d : Int) (hl : l ≠ leaf)
    (hr : r ≠ leaf) :
    delete_python (node l d r) d =
      node l (find_min r) (delete_python r (find_min r)) := by
  simp only [delete_python]
  rw [if_neg (lt_irrefl d), if_neg (lt_irrefl d)]

theorem find_min_mem : ∀ {t : BTree}, t ≠ leaf → find_min t ∈ inorder t := by
  intro t
  induction t with
  | leaf => intro h; exact absurd rfl h
  | node l d r ihl ihr =>
    intro _
    cases l with
    | leaf =>
      rw [find_min_node_leaf, inorder_node leaf d r, inorder_leaf,
        List.nil_append]
      exact List.mem_cons_self d _
    | node a b c =>
      rw [find_min_node_node, inorder_node (node a b c) d r]
      exact List.mem_append_left _ (ihl (by simp))

theorem find_min_le : ∀ {t : BTree}, IsBST t → t ≠ leaf →
    ∀ x ∈ inorder t, find_min t ≤ x := by
  intro t
  induction t with
  | leaf => intro _ h; exact absurd rfl h
  | node l d r ihl ihr =>
    intro h _ x hx
    cases h with
    | node hl hr hbl hbr =>
      cases l with
      | leaf =>
        rw [find_min_node_leaf]
        rw [inorder_node leaf d r, inorder_leaf, List.nil_append] at hx
        rcases List.mem_cons.mp hx with rfl | hx
        · exact le_refl x
        · exact le_of_lt (hbr x hx)
      | node a b c =>
        have hmem : find_min (node a b c) ∈ inorder (node a b c) :=
          find_min_mem (by simp)
        have hlt : find_min (node a b c) < d := hbl _ hmem
        rw [find_min_node_node]
        rw [inorder_node (node a b c) d r] at hx
        rcases List.mem_append.mp hx with hx | hx
        · exact ihl hl (by simp) x hx
        · rcases List.mem_cons.mp hx with rfl | hx
          · exact le_of_lt hlt
          · exact le_of_lt (lt_trans hlt (hbr x hx))

theorem mem_inorder_delete : ∀ {t : BTree}, IsBST t → ∀ (x v : Int),
    (v ∈ inorder (delete_python t x) ↔ v ∈ inorder t ∧ v ≠ x) := by
  intro t
  induction t with
  | leaf => intro _ x v; simp [delete_python, inorder]
  | node l d r ihl ihr =>
    intro h x v
    cases h with
    | node hl hr hbl hbr =>
      rcases lt_trichotomy x d with h1 | heq | h2
      · have hdx : d ≠ x := ne_of_gt h1
        have hrx : ∀ y ∈ inorder r, y ≠ x :=
          fun y hy => ne_of_gt (lt_trans h1 (hbr y hy))
        rw [delete_eq_lt l r d x h1,
          inorder_node (delete_python l x) d r, inorder_node l d r]
        simp only [List.mem_append, List.mem_cons, ihl hl x v]
        constructor
        · rintro (⟨hv, hne⟩ | rfl | hv)
          · exact ⟨Or.inl hv, hne⟩
          · exact ⟨Or.inr (Or.inl rfl), hdx⟩
          · exact ⟨Or.inr (Or.inr hv), hrx v hv⟩
        · rintro ⟨hv | rfl | hv, hne⟩
          · exact Or.inl ⟨hv, hne⟩
          · exact Or.inr (Or.inl rfl)
          · exact Or.inr (Or.inr hv)
      · subst heq
        cases l with
        | leaf =>
          rw [delete_eq_leaf_left r x,
            inorder_node leaf x r, inorder_leaf, List.nil_append]
          simp only [List.mem_cons]
          constructor
          · intro hv
            exact ⟨Or.inr hv, ne_of_gt (hbr v hv)⟩
          · rintro ⟨rfl | hv, hne⟩
            · exact absurd rfl hne
            · exact hv
        | node a b c =>
          have hlx : ∀ y ∈ inorder (node a b c), y ≠ x :=
            fun y hy => ne_of_lt (hbl y hy)
          cases r with
          | leaf =>
            rw [delete_eq_leaf_right (node a b c) x (by simp),
              inorder_node (node a b c) x leaf, inorder_leaf]
            simp only [List.mem_append, List.mem_cons, List.not_mem_nil,
              or_false]
            constructor
            · intro hv
              exact ⟨Or.inl hv, hlx v hv⟩
            · rintro ⟨hv | rfl, hne⟩
              · exact hv
              · exact absurd rfl hne
          | node p q s =>
            have hrne : (node p q s : BTree) ≠ leaf := by simp
            have hm_mem : find_min (node p q s) ∈ inorder (node p q s) :=
              find_min_mem hrne
            have hdm : x < find_min (node p q s) := hbr _ hm_mem
            have hrx : ∀ y ∈ inorder (node p q s), y ≠ x :=
              fun y hy => ne_of_gt (hbr y hy)
            rw [delete_eq_two (node a b c) (node p q s) x (by simp) (by simp),
              inorder_node (node a b c) (find_min (node p q s))
                (delete_python (node p q s) (find_min (node p q s))),
              inorder_node (node a b c) x (node p q s)]
            simp only [List.mem_append, List.mem_cons,
              ihr hr (find_min (node p q s)) v]
            constructor
            · rintro (hv | rfl | ⟨hv, hne⟩)
              · exact ⟨Or.inl hv, hlx v hv⟩
              · exact ⟨Or.inr (Or.inr hm_mem), ne_of_gt hdm⟩
              · exact ⟨Or.inr (Or.inr hv), hrx v hv⟩
            · rintro ⟨hv | rfl | hv, hne⟩
              · exact Or.inl hv
              · exact absurd rfl hne
              · by_cases hvm : v = find_min (node p q s)
                · exact Or.inr (Or.inl hvm)
                · exact Or.inr (Or.inr ⟨hv, hvm⟩)
      · have hdx : d ≠ x := ne_of_lt h2
        have hlx : ∀ y ∈ inorder l, y ≠ x :=
          fun y hy => ne_of_lt (lt_trans (hbl y hy) h2)
        rw [delete_eq_gt l r d x h2,
          inorder_node l d (delete_python r x), inorder_node l d r]
        simp only [List.mem_append, List.mem_cons, ihr hr x v]
        constructor
        · rintro (hv | rfl | ⟨hv, hne⟩)
          · exact ⟨Or.inl hv, hlx v hv⟩
          · exact ⟨Or.inr (Or.inl rfl), hdx⟩
          · exact ⟨Or.inr (Or.inr hv), hne⟩
        · rintro ⟨hv | rfl | hv, hne⟩
          · exact Or.inl hv
          · exact Or.inr (Or.inl rfl)
          · exact Or.inr (Or.inr ⟨hv, hne⟩)

theorem delete_isBST : ∀ {t : BTree}, IsBST t → ∀ x,
    IsBST (delete_python t x) := by
  intro t
  induction t with
  | leaf => intro _ _; exact .leaf
  | node l d r ihl ihr =>
    intro h x
    cases h with
    | node hl hr hbl hbr =>
      rcases lt_trichotomy x d with h1 | heq | h2
      · rw [delete_eq_lt l r d x h1]
        exact .node (ihl hl x) hr
          (fun y hy => hbl y ((mem_inorder_delete hl x y).mp hy).1) hbr
      · subst heq
        cases l with
        | leaf =>
          rw [delete_eq_leaf_left r x]
          exact hr
        | node a b c =>
          cases r with
          | leaf =>
            rw [delete_eq_leaf_right (node a b c) x (by simp)]
            exact hl
          | node p q s =>
            have hrne : (node p q s : BTree) ≠ leaf := by simp
            have hm_mem : find_min (node p q s) ∈ inorder (node p q s) :=
              find_min_mem hrne
            have hdm : x < find_min (node p q s) := hbr _ hm_mem
            rw [delete_eq_two (node a b c) (node p q s) x (by simp) (by simp)]
            refine .node hl (ihr hr _)
              (fun y hy => lt_trans (hbl y hy) hdm) ?_
            intro y hy
            have hmm :=
              (mem_inorder_delete hr (find_min (node p q s)) y).mp hy
            exact lt_of_le_of_ne (find_min_le hr hrne y hmm.1)
              (Ne.symm hmm.2)
      · rw [delete_eq_gt l r d x h2]
        exact .node hl (ihr hr x) hbl
          (fun y hy => hbr y ((mem_inorder_delete hr x y).mp hy).1)

theorem search_eq_mem : ∀ {t : BTree}, IsBST t → ∀ v : Int,
    (search_python t v = true ↔ v ∈ inorder t) := by
  intro t
  induction t with
  | leaf => intro _ v; simp [search_python, inorder]
  | node l d r ihl ihr =>
    intro h v
    cases h with
    | node hl hr hbl hbr =>
      by_cases he : v = d
      · subst he
        simp [search_python, inorder]
      · by_cases h1 : v < d
        · have hvr : v ∉ inorder r := fun hv => absurd (hbr v hv) (asymm h1)
          simp only [search_python, if_neg he, if_pos h1, inorder,
            List.mem_append, List.mem_cons, ihl hl v]
          tauto
        · have h2 : d < v := lt_of_le_of_ne (not_lt.mp h1) (Ne.symm he)
          have hvl : v ∉ inorder l := fun hv => absurd (hbl v hv) (asymm h2)
          simp only [search_python, if_neg he, if_neg h1, inorder,
            List.mem_append, List.mem_cons, ihr hr v]
          tauto

end BTree

/-! ### Claims C3, C4 -/

/-- C3 (confirmed): for every sequence of inserts into an initially empty
BST, the in-order traversal of the result is strictly increasing
(`Pairwise (· < ·)`, hence non-decreasing and duplicate-free), and its
elements are exactly the values that occur in the inserted sequence. -/
theorem claim3_inorder_sorted (xs : List Int) :
    (BTree.inorder (BTree.insertList .leaf xs)).Pairwise (· < ·) ∧
    ∀ v, v ∈ BTree.inorder (BTree.insertList .leaf xs) ↔ v ∈ xs := by
  refine ⟨BTree.inorder_pairwise (BTree.insertList_isBST xs .leaf), fun v => ?_⟩
  rw [BTree.mem_insertList]
  simp [BTree.inorder]

/-- C4 (confirmed): for every BST `T` satisfying the ordering invariant and
every value `v`, after `delete(insert(T, v), v)` searching `v` returns
false while every other value previously present still searches true; and
deleting a value sitting in a node with two children copies
`find_min` of the right subtree (its in-order successor, the leftmost
node there) into the node and recursively deletes that value from the
right subtree. -/
theorem claim4_delete_insert_search :
    (∀ (T : BTree) (v : Int), BTree.IsBST T →
      BTree.search_python (BTree.delete_python (BTree.insert_python T v) v) v
          = false ∧
      ∀ w ∈ BTree.inorder T, w ≠ v →
        BTree.search_python (BTree.delete_python (BTree.insert_python T v) v) w
          = true) ∧
    (∀ (l : BTree) (d : Int) (r : BTree), l ≠ .leaf → r ≠ .leaf →
      BTree.delete_python (.node l d r) d =
        .node l (BTree.find_min r)
          (BTree.delete_python r (BTree.find_min r))) := by
  constructor
  · intro T v hT
    have hT' : BTree.IsBST (BTree.insert_python T v) := BTree.insert_isBST hT v
    have hdel : BTree.IsBST
        (BTree.delete_python (BTree.insert_python T v) v) :=
      BTree.delete_isBST hT' v
    constructor
    · apply Bool.eq_false_iff.mpr
      intro ht
      have hm := (BTree.search_eq_mem hdel v).mp ht
      exact ((BTree.mem_inorder_delete hT' v v).mp hm).2 rfl
    · intro w hw hne
      apply (BTree.search_eq_mem hdel w).mpr
      apply (BTree.mem_inorder_delete hT' v w).mpr
      exact ⟨(BTree.mem_inorder_insert T v w).mpr (Or.inr hw), hne⟩
  · intro l d r hl hr
    cases l with
    | leaf => exact absurd rfl hl
    | node a b c =>
      cases r with
      | leaf => exact absurd rfl hr
      | node p q s => simp [BTree.delete_python]

theorem claim4_witness :
    BTree.search_python
      (BTree.delete_python (BTree.insert_python (.node .leaf 1 .leaf) 2) 2) 2
        = false ∧
    BTree.search_python
      (BTree.delete_python (BTree.insert_python (.node .leaf 1 .leaf) 2) 2) 1
        = true ∧
    BTree.delete_python (.node (.node .leaf 0 .leaf) 1 (.node .leaf 2 .leaf)) 1
      = .node (.node .leaf 0 .leaf)
          (BTree.find_min (.node .leaf 2 .leaf))
          (BTree.delete_python (.node .leaf 2 .leaf)
            (BTree.find_min (.node .leaf 2 .leaf))) := by
  have hbst : BTree.IsBST (.node .leaf 1 .leaf) :=
    .node .leaf .leaf (by simp [BTree.inorder]) (by simp [BTree.inorder])
  refine ⟨(claim4_delete_insert_search.1 _ 2 hbst).1,
    (claim4_delete_insert_search.1 _ 2 hbst).2 1 (by decide) (by decide),
    claim4_delete_insert_search.2 _ 1 _ (by simp) (by simp)⟩

/-! ## Linked list engine (`linkedlist_ui.py`)

`self.head` points at a chain of `ListNode(data, next)`; the chain is a
`List Int` (empty list for `head = None`).  The two delete operations show
a warning dialog and leave the list unchanged when it is empty; this is
modelled by returning `none`, while a successful delete returns the new
list together with the removed value. -/

/-- `insert_at_head`: the new node becomes the head. -/
def insert_at_head (l : List Int) (v : Int) : List Int := v :: l

/-- `delete_from_head` (linkedlist_ui.py lines 165-179): empty list fails
(state untouched); otherwise the head node is unlinked and its value
reported. -/
def delete_from_head : List Int → Option (List Int × Int)
  | [] => none
  | v :: rest => some (rest, v)

/-- `delete_from_tail` (linkedlist_ui.py lines 181-204): empty list fails
(state untouched); a single node yields the empty list; otherwise walk to
the second-to-last node (`while current.next.next is not None`) and cut
the last node off. -/
def delete_from_tail : List Int → Option (List Int × Int)
  | [] => none
  | [v] => some ([], v)
  | v :: w :: rest =>
    match delete_from_tail (w :: rest) with
    | some (l, dv) => some (v :: l, dv)
    | none => none

theorem delete_from_tail_append (xs : List Int) (x : Int) (h : xs ≠ []) :
    delete_from_tail (xs ++ [x]) = some (xs, x) := by
  induction xs with
  | nil => exact absurd rfl h
  | cons a xs ih =>
    cases xs with
    | nil => rfl
    | cons b rest =>
      have ih2 := ih (by simp)
      simp only [List.cons_append] at ih2 ⊢
      simp only [delete_from_tail, ih2]

/-! ### Claim C7 -/

/-- C7 (confirmed): on the empty list both `delete_from_head` and
`delete_from_tail` fail (returning `none`, which models the
`EmptyStructure` warning path that leaves `self.head` untouched); on a
single-node list both yield the empty list and that node's value; and on a
list of length at least two, `delete_from_tail` keeps the first n-1 values
unchanged in order and returns the last value. -/
theorem claim7_list_deletes :
    (delete_from_head ([] : List Int) = none ∧
     delete_from_tail ([] : List Int) = none) ∧
    (∀ v : Int, delete_from_head [v] = some ([], v) ∧
      delete_from_tail [v] = some ([], v)) ∧
    (∀ (xs : List Int) (x : Int), xs ≠ [] →
      delete_from_tail (xs ++ [x]) = some (xs, x)) :=
  ⟨⟨rfl, rfl⟩, fun _ => ⟨rfl, rfl⟩, delete_from_tail_append⟩

theorem claim7_witness :
    delete_from_tail [(7 : Int), 4, 3] = some ([7, 4], 3) :=
  claim7_list_deletes.2.2 [7, 4] 3 (by decide)

/-! ## BST layout engine (`bst_ui.py`, `refresh_view` / `draw_tree`)

`draw_tree(node, x, y, x_offset, y_offset, ...)` draws a connecting line
and recurses for each present child at horizontal distance `x_offset`
(halved by integer division for the next level, `x_offset // 2`) and
vertical distance `y_offset`, then draws the node's circle at `(x, y)`.
`refresh_view` draws nothing for an empty tree (only a "Tree is empty"
text) and otherwise calls
`draw_tree(root, width // 2, 50, width // 4, 80, ...)`.
Coordinates are `Int`; offsets are the non-negative Python ints produced
by `width // 4` and repeated halving, so they are `Nat` (Python floor
division on non-negatives equals `Nat` division).  The bounds arguments
`min_x .. max_y` of the Python function are unused for placement and are
omitted. -/

/-- A node circle drawn at `(x, y)` showing value `val`. -/
structure PNode where
  x : Int
  y : Int
  val : Int
deriving DecidableEq, Repr

/-- A parent-child connecting line from `(x1, y1)` to `(x2, y2)`. -/
structure PEdge where
  x1 : Int
  y1 : Int
  x2 : Int
  y2 : Int
deriving DecidableEq, Repr

/-- The horizontal offset handed to the children: `x_offset // 2`. -/
def child_offset (xOff : Nat) : Nat := xOff / 2

/-- `draw_tree` (bst_ui.py lines 652-699) as a pure geometry producer:
the returned lists follow canvas-item creation order (left line, left
subtree, right line, right subtree, then this node's circle). -/
def draw_tree : BTree → Int → Int → Nat → Int → List PEdge × List PNode
  | .leaf, _, _, _, _ => ([], [])
  | .node l d r, x, y, xOff, yOff =>
    let lsub := draw_tree l (x - (xOff : Int)) (y + yOff) (child_offset xOff) yOff
    let rsub := draw_tree r (x + (xOff : Int)) (y + yOff) (child_offset xOff) yOff
    let ledges : List PEdge :=
      match l with
      | .leaf => []
      | _ => [⟨x, y + 20, x - (xOff : Int), y + yOff - 20⟩]
    let redges : List PEdge :=
      match r with
      | .leaf => []
      | _ => [⟨x, y + 20, x + (xOff : Int), y + yOff - 20⟩]
    (ledges ++ lsub.1 ++ redges ++ rsub.1, lsub.2 ++ rsub.2 ++ [⟨x, y, d⟩])

/-- `refresh_view` (bst_ui.py lines 622-650): empty geometry for the empty
tree, otherwise `draw_tree(root, width // 2, 50, width // 4, 80, ...)`.
`height` only sizes the canvas and the empty-state message. -/
def layout_bst (t : BTree) (width height : Nat) : List PEdge × List PNode :=
  match t with
  | .leaf => ([], [])
  | _ => draw_tree t ((width / 2 : Nat) : Int) 50 (width / 4) 80

/-! ### Claim C8 -/

/-- C8 (counterexample): layouting the left spine obtained by inserting
`[10, 9, ..., 0]` on the default 1000x600 canvas, the node x-coordinates
(deepest node first) are `[6, 6, 6, 7, 10, ...]`: the three deepest nodes
share `x = 6`, so the x-offset between depths 9 and 10 (namely 0) is not
strictly smaller than the offset between depths 8 and 9 (also 0) — child
x-offsets do not strictly decrease with depth at every level once the
halved integer offset reaches 0. -/
theorem claim8_counterexample :
    ((layout_bst (BTree.insertList .leaf [10, 9, 8, 7, 6, 5, 4, 3, 2, 1, 0])
        1000 600).2.map PNode.x) =
      [6, 6, 6, 7, 10, 17, 32, 63, 125, 250, 500] ∧
    ¬ (((6 : Int) - 6).natAbs < ((6 : Int) - 6).natAbs) := by
  constructor
  · decide
  · decide

/-- C8 (amended): the empty tree produces empty geometry; a single-node
tree produces exactly one positioned node (at `(width // 2, 50)`) and zero
edges; the offset passed to the children one level deeper is the parent's
offset divided by 2 with integer (floor) division; consequently child
x-offsets strictly decrease with depth only while the parent offset is
still positive (at offset 0 consecutive levels share the same x). -/
theorem claim8_layout_amended :
    (∀ width height : Nat, layout_bst .leaf width height = ([], [])) ∧
    (∀ (v : Int) (width height : Nat),
      layout_bst (.node .leaf v .leaf) width height =
        ([], [⟨((width / 2 : Nat) : Int), 50, v⟩])) ∧
    (∀ xOff : Nat, child_offset xOff = xOff / 2) ∧
    (∀ xOff : Nat, 0 < xOff → child_offset xOff < xOff) := by
  refine ⟨fun _ _ => rfl, fun v width height => rfl, fun _ => rfl, ?_⟩
  intro xOff h
  exact Nat.div_lt_self h (by norm_num)

theorem claim8_witness :
    layout_bst .leaf 1000 600 = ([], []) ∧
    layout_bst (.node .leaf 42 .leaf) 1000 600 =
      ([], [⟨((1000 / 2 : Nat) : Int), 50, 42⟩]) ∧
    child_offset 250 = 125 ∧
    child_offset 250 < 250 :=
  ⟨claim8_layout_amended.1 1000 600,
   claim8_layout_amended.2.1 42 1000 600,
   claim8_layout_amended.2.2.1 250,
   claim8_layout_amended.2.2.2 250 (by decide)⟩

/-! ## Graph traversals (`graph_ui.py`, `bfs_traversal` / `dfs_traversal`)

Both traversals first build `adj_list` by scanning `self.edges` in
insertion order and appending each destination to its source's list, then
run the textbook algorithm over it.  The loops are modelled with an
explicit fuel argument set to `num_vertices`: every iteration of the BFS
`while queue` loop pops one previously-enqueued vertex, and every vertex
is marked visited when enqueued (and `start` at the beginning), so at most
`num_vertices` iterations can ever run; likewise the DFS recursion only
descends into vertices that were unvisited and are marked on entry, so its
depth never exceeds `num_vertices`.  The fuel-stability theorem below
(claim C6) proves the DFS result is unchanged by any additional fuel,
which is exactly the termination argument of the claim. -/

/-- The adjacency list built from the edge list: for vertex `v`, the
destinations of the stored edges with source `v`, in edge-insertion
order (`for src, dest, weight in self.edges: adj_list[src].append(dest)`). -/
def adjacency (g : Graph) (v : Nat) : List Nat :=
  (g.edges.filter (fun e => e.1 == v)).map (fun e => e.2.1)

/-- The inner `for neighbor in adj_list[vertex]` loop of BFS: mark and
collect each not-yet-visited neighbor in order.  Out-of-range indices read
as visited (`getD` default `true`), which cannot occur for edges the UI
accepted. -/
def enqueue_neighbors : List Bool → List Nat → List Bool × List Nat
  | visited, [] => (visited, [])
  | visited, nb :: rest =>
    if visited.getD nb true then enqueue_neighbors visited rest
    else
      let r := enqueue_neighbors (visited.set nb true) rest
      (r.1, nb :: r.2)

/-- The `while queue` loop of `bfs_traversal` (graph_ui.py lines 336-355):
pop the front, record it, enqueue its fresh neighbors at the back. -/
def bfsLoop (adj : Nat → List Nat) : Nat → List Bool → List Nat → List Nat
  | 0, _, _ => []
  | _ + 1, _, [] => []
  | fuel + 1, visited, v :: rest =>
    let r := enqueue_neighbors visited (adj v)
    v :: bfsLoop adj fuel r.1 (rest ++ r.2)

/-- `bfs_traversal(graph, start)`: `visited = [False] * n`,
`visited[start] = True`, `queue = [start]`, then the loop. -/
def bfs_traversal (g : Graph) (start : Nat) : List Nat :=
  bfsLoop (adjacency g) g.numVertices
    ((List.replicate g.numVertices false).set start true) [start]

/-- `dfs_util(vertex)` (graph_ui.py lines 403-412): mark the vertex
visited, record it, then recurse into each still-unvisited neighbor in
adjacency order.  Returns the visited array and the sub-sequence of
vertices recorded during this call. -/
def dfs_util (adj : Nat → List Nat) : Nat → List Bool → Nat → List Bool × List Nat
  | 0, visited, _ => (visited, [])
  | fuel + 1, visited, vertex =>
    (adj vertex).foldl
      (fun s nb =>
        if s.1.getD nb true then s
        else
          let r := dfs_util adj fuel s.1 nb
          (r.1, s.2 ++ r.2))
      (visited.set vertex true, [vertex])

/-- `dfs_traversal(graph, start)`: fresh visited array, then
`dfs_util(start)`. -/
def dfs_traversal (g : Graph) (start : Nat) : List Nat :=
  (dfs_util (adjacency g) g.numVertices
    (List.replicate g.numVertices false) start).2

/-- The 3-vertex example graph of the specification, with edges added in
the order (0,1,5), (1,2,3), (0,2,1). -/
def exampleGraph : Graph :=
  add_edge (add_edge (add_edge (create_graph 3) 0 1 5) 1 2 3) 0 2 1

/-! ### Claim C5 -/

/-- C5 (confirmed): `bfs_traversal` always records the start vertex first
(it is the sole initial queue entry of the FIFO loop), and on the 3-vertex
graph with edges (0,1,5), (1,2,3), (0,2,1) added in that order, both
`bfs_traversal` and `dfs_traversal` from 0 visit `[0, 1, 2]`, with
neighbors taken in edge-insertion order. -/
theorem claim5_bfs_dfs_order :
    (∀ (g : Graph) (start : Nat), start < g.numVertices →
      (bfs_traversal g start).head? = some start) ∧
    bfs_traversal exampleGraph 0 = [0, 1, 2] ∧
    dfs_traversal exampleGraph 0 = [0, 1, 2] := by
  refine ⟨?_, by decide, by decide⟩
  intro g start h
  unfold bfs_traversal
  cases hn : g.numVertices with
  | zero => rw [hn] at h; exact absurd h (Nat.not_lt_zero start)
  | succ m => simp [bfsLoop]

theorem claim5_witness :
    (bfs_traversal (create_graph 2) 1).head? = some 1 :=
  claim5_bfs_dfs_order.1 (create_graph 2) 1 (by decide)

/-! ### Claim C6: DFS termination and reachability

The Python recursion terminates on cyclic graphs because `dfs_util` marks
a vertex visited before recursing into its neighbors, so no vertex is
entered twice and the recursion depth is bounded by the number of
unvisited entries.  In the fuel model this is the statement that the
result is unchanged by any extra fuel beyond `num_vertices`. -/

/-- The number of `False` entries of the Python `visited` array. -/
def falseCount : List Bool → Nat
  | [] => 0
  | b :: l => (if b then 0 else 1) + falseCount l

theorem count_false_set : ∀ {l : List Bool} {n : Nat},
    l.getD n true = false → falseCount (l.set n true) + 1 = falseCount l := by
  intro l
  induction l with
  | nil => intro n h; simp [List.getD] at h
  | cons b l ih =>
    intro n h
    cases n with
    | zero =>
      have hb : b = false := by simpa using h
      subst hb
      show falseCount (true :: l) + 1 = falseCount (false :: l)
      simp [falseCount]
      omega
    | succ n =>
      have h' : l.getD n true = false := by simpa using h
      show falseCount (b :: l.set n true) + 1 = falseCount (b :: l)
      simp only [falseCount]
      have := ih h'
      omega

theorem count_false_pos {l : List Bool} {n : Nat}
    (h : l.getD n true = false) : 1 ≤ falseCount l := by
  have := count_false_set h
  omega

theorem count_false_set_le : ∀ (l : List Bool) (n : Nat),
    falseCount (l.set n true) ≤ falseCount l := by
  intro l
  induction l with
  | nil => intro n; exact le_refl _
  | cons b l ih =>
    intro n
    cases n with
    | zero =>
      show falseCount (true :: l) ≤ falseCount (b :: l)
      simp only [falseCount]
      cases b <;> simp
    | succ n =>
      show falseCount (b :: l.set n true) ≤ falseCount (b :: l)
      simp only [falseCount]
      have := ih n
      omega

theorem falseCount_replicate (n : Nat) :
    falseCount (List.replicate n false) = n := by
  induction n with
  | zero => rfl
  | succ n ih =>
    rw [List.replicate_succ]
    simp [falseCount, ih]
    omega

theorem getD_replicate_false : ∀ {n i : Nat}, i < n →
    (List.replicate n false).getD i true = false := by
  intro n
  induction n with
  | zero => intro i h; omega
  | succ n ih =>
    intro i h
    rw [List.replicate_succ]
    cases i with
    | zero => rfl
    | succ i =>
      show (List.replicate n false).getD i true = false
      exact ih (by omega)

/-- The body of the `for neighbor` loop of `dfs_util`, threading the
visited array and the visit order through the fold. -/
def dfs_step (adj : Nat → List Nat) (fuel : Nat)
    (s : List Bool × List Nat) (nb : Nat) : List Bool × List Nat :=
  if s.1.getD nb true then s
  else
    let r := dfs_util adj fuel s.1 nb
    (r.1, s.2 ++ r.2)

theorem dfs_util_succ (adj : Nat → List Nat) (fuel : Nat)
    (visited : List Bool) (vertex : Nat) :
    dfs_util adj (fuel + 1) visited vertex =
      (adj vertex).foldl (dfs_step adj fuel)
        (visited.set vertex true, [vertex]) := rfl

theorem dfs_fold_count_le (adj : Nat → List Nat) (fuel : Nat)
    (hm : ∀ (visited : List Bool) (v : Nat),
      falseCount (dfs_util adj fuel visited v).1 ≤ falseCount visited) :
    ∀ (l : List Nat) (s : List Bool × List Nat),
      falseCount (List.foldl (dfs_step adj fuel) s l).1 ≤ falseCount s.1 := by
  intro l
  induction l with
  | nil => intro s; exact le_refl _
  | cons nb rest ih =>
    intro s
    rw [List.foldl_cons]
    refine le_trans (ih _) ?_
    unfold dfs_step
    by_cases hnb : s.1.getD nb true = true
    · rw [if_pos hnb]
    · rw [if_neg hnb]
      exact hm s.1 nb

theorem dfs_count_le (adj : Nat → List Nat) :
    ∀ (fuel : Nat) (visited : List Bool) (v : Nat),
      falseCount (dfs_util adj fuel visited v).1 ≤ falseCount visited := by
  intro fuel
  induction fuel with
  | zero => intro visited v; exact le_refl _
  | succ fuel ih =>
    intro visited v
    rw [dfs_util_succ]
    exact le_trans (dfs_fold_count_le adj fuel ih (adj v) _)
      (count_false_set_le visited v)

theorem dfs_fold_stable (adj : Nat → List Nat) (fuel : Nat)
    (hm : ∀ (visited : List Bool) (v : Nat),
      falseCount (dfs_util adj fuel visited v).1 ≤ falseCount visited)
    (HP : ∀ (visited : List Bool) (v : Nat), visited.getD v true = false →
      falseCount visited ≤ fuel →
      dfs_util adj fuel visited v = dfs_util adj (fuel + 1) visited v) :
    ∀ (l : List Nat) (s : List Bool × List Nat), falseCount s.1 ≤ fuel →
      List.foldl (dfs_step adj fuel) s l =
        List.foldl (dfs_step adj (fuel + 1)) s l := by
  intro l
  induction l with
  | nil => intro s _; rfl
  | cons nb rest ih =>
    intro s hs
    rw [List.foldl_cons, List.foldl_cons]
    by_cases hnb : s.1.getD nb true = true
    · have h1 : dfs_step adj fuel s nb = s := by
        unfold dfs_step; rw [if_pos hnb]
      have h2 : dfs_step adj (fuel + 1) s nb = s := by
        unfold dfs_step; rw [if_pos hnb]
      rw [h1, h2]
      exact ih s hs
    · have hb : s.1.getD nb true = false := by
        cases hh : s.1.getD nb true
        · rfl
        · exact absurd hh hnb
      have heq : dfs_util adj fuel s.1 nb = dfs_util adj (fuel + 1) s.1 nb :=
        HP s.1 nb hb hs
      have h1 : dfs_step adj fuel s nb =
          ((dfs_util adj fuel s.1 nb).1, s.2 ++ (dfs_util adj fuel s.1 nb).2) := by
        unfold dfs_step; rw [if_neg hnb]
      have h2 : dfs_step adj (fuel + 1) s nb =
          ((dfs_util adj fuel s.1 nb).1, s.2 ++ (dfs_util adj fuel s.1 nb).2) := by
        unfold dfs_step; rw [if_neg hnb, ← heq]
      rw [h1, h2]
      exact ih _ (le_trans (hm s.1 nb) hs)

theorem dfs_util_stable (adj : Nat → List Nat) :
    ∀ (fuel : Nat) (visited : List Bool) (v : Nat),
      visited.getD v true = false → falseCount visited ≤ fuel + 1 →
      dfs_util adj (fuel + 1) visited v = dfs_util adj (fuel + 2) visited v := by
  intro fuel
  induction fuel with
  | zero =>
    intro visited v hv hc
    rw [dfs_util_succ, dfs_util_succ]
    refine dfs_fold_stable adj 0 (fun vis w => le_refl _) ?_ (adj v) _ ?_
    · intro vis w hw hc0
      exact absurd (le_trans (count_false_pos hw) hc0) (by omega)
    · show falseCount (visited.set v true) ≤ 0
      have h2 := count_false_set hv
      omega
  | succ fuel ih =>
    intro visited v hv hc
    rw [dfs_util_succ, dfs_util_succ]
    refine dfs_fold_stable adj (fuel + 1) (dfs_count_le adj (fuel + 1)) ih
      (adj v) _ ?_
    show falseCount (visited.set v true) ≤ fuel + 1
    have h2 := count_false_set hv
    omega

theorem dfs_util_stable_add (adj : Nat → List Nat) :
    ∀ (k fuel : Nat) (visited : List Bool) (v : Nat),
      visited.getD v true = false → falseCount visited ≤ fuel + 1 →
      dfs_util adj (fuel + 1 + k) visited v = dfs_util adj (fuel + 1) visited v := by
  intro k
  induction k with
  | zero => intro fuel visited v _ _; rfl
  | succ k ih =>
    intro fuel visited v hv hc
    have h1 : fuel + 1 + (k + 1) = (fuel + k) + 2 := by omega
    have h2 := dfs_util_stable adj (fuel + k) visited v hv (by omega)
    rw [h1, ← h2]
    have h3 : fuel + k + 1 = fuel + 1 + k := by omega
    rw [h3]
    exact ih fuel visited v hv hc

/-- Reachability along the adjacency structure: the reflexive-transitive
closure of "is an out-neighbor of". -/
inductive ReachAdj (adj : Nat → List Nat) : Nat → Nat → Prop where
  | refl (v : Nat) : ReachAdj adj v v
  | step {v w u : Nat} : w ∈ adj v → ReachAdj adj w u → ReachAdj adj v u

theorem dfs_fold_mem (adj : Nat → List Nat) (fuel : Nat) :
    ∀ (l : List Nat) (s : List Bool × List Nat) (w : Nat),
      w ∈ (List.foldl (dfs_step adj fuel) s l).2 →
      w ∈ s.2 ∨ ∃ nb ∈ l, ∃ vis, w ∈ (dfs_util adj fuel vis nb).2 := by
  intro l
  induction l with
  | nil => intro s w hw; exact Or.inl hw
  | cons nb rest ih =>
    intro s w hw
    rw [List.foldl_cons] at hw
    rcases ih _ w hw with hmem | ⟨nb', hnb', vis, hvis⟩
    · unfold dfs_step at hmem
      by_cases hc : s.1.getD nb true = true
      · rw [if_pos hc] at hmem
        exact Or.inl hmem
      · rw [if_neg hc] at hmem
        simp only [List.mem_append] at hmem
        rcases hmem with h | h
        · exact Or.inl h
        · exact Or.inr ⟨nb, List.mem_cons_self nb rest, s.1, h⟩
    · exact Or.inr ⟨nb', List.mem_cons_of_mem nb hnb', vis, hvis⟩

theorem dfs_util_reach (adj : Nat → List Nat) :
    ∀ (fuel : Nat) (visited : List Bool) (v w : Nat),
      w ∈ (dfs_util adj fuel visited v).2 → ReachAdj adj v w := by
  intro fuel
  induction fuel with
  | zero => intro visited v w hw; simp [dfs_util] at hw
  | succ fuel ih =>
    intro visited v w hw
    rw [dfs_util_succ] at hw
    rcases dfs_fold_mem adj fuel (adj v) _ w hw with hmem | ⟨nb, hnb, vis, hvis⟩
    · simp only [List.mem_singleton] at hmem
      subst hmem
      exact ReachAdj.refl w
    · exact ReachAdj.step hnb (ih vis nb w hvis)

/-- C6 (confirmed): `dfs_traversal` terminates on every graph, cyclic ones
included — in the fuel model, the result computed with fuel
`num_vertices` is unchanged by any amount of extra fuel, because each
recursive call marks its vertex visited before descending so the recursion
depth can never exceed the number of unvisited entries — and every vertex
it returns is reachable from `start` along stored edges. -/
theorem claim6_dfs_terminates :
    (∀ (g : Graph) (start k : Nat), start < g.numVertices →
      (dfs_util (adjacency g) (g.numVertices + k)
        (List.replicate g.numVertices false) start).2 = dfs_traversal g start) ∧
    (∀ (g : Graph) (start : Nat),
      ∀ w ∈ dfs_traversal g start, ReachAdj (adjacency g) start w) := by
  constructor
  · intro g start k h
    unfold dfs_traversal
    obtain ⟨m, hm⟩ : ∃ m, g.numVertices = m + 1 := ⟨g.numVertices - 1, by omega⟩
    rw [hm]
    have hgd : (List.replicate (m + 1) false).getD start true = false :=
      getD_replicate_false (by omega)
    have hcf : falseCount (List.replicate (m + 1) false) = m + 1 :=
      falseCount_replicate (m + 1)
    have hst := dfs_util_stable_add (adjacency g) k m
      (List.replicate (m + 1) false) start hgd (by omega)
    rw [hst]
  · intro g start w hw
    exact dfs_util_reach (adjacency g) g.numVertices _ start w hw

theorem claim6_witness :
    (dfs_util (adjacency exampleGraph) (3 + 7)
      (List.replicate 3 false) 0).2 = dfs_traversal exampleGraph 0 ∧
    ReachAdj (adjacency exampleGraph) 0 2 :=
  ⟨claim6_dfs_terminates.1 exampleGraph 0 7 (by decide),
   claim6_dfs_terminates.2 exampleGraph 0 2 (by decide)⟩

/-! ## Graph layout engine (`graph_ui.py`, `draw_graph`)

`draw_graph` (lines 495-589) computes the canvas centre
`(width // 2, height // 2)`, a radius clamped between the configured
minimum 100 and maximum `min(width, height) // 3` (the base radius equals
the maximum, so the clamp is `max(100, min(width, height) // 3)`), places
vertex `i` at angle `2*pi*i/num_vertices - pi/2` (a single vertex sits at
the centre), and then draws one arrow per stored edge whose endpoints are
both valid vertex ids.  The Python float/trig arithmetic is idealised
over the real numbers; the per-arrow endpoint geometry of `draw_arrow`
(inward offsets and the label position) is display detail not needed by
the claims and the drawn edges are recorded as the filtered edge list. -/

/-- `radius = max(min_radius, min(base_radius, max_radius))` with
`min_radius = 100` and `base_radius = max_radius = min(width, height) // 3`. -/
def graphRadius (width height : Nat) : Nat :=
  let min_radius := 100
  let max_radius := min width height / 3
  let base_radius := min width height / 3
  max min_radius (min base_radius max_radius)

/-- `angle = 2 * math.pi * i / self.num_vertices - math.pi / 2`
(graph_ui.py line 542), idealised over the reals. -/
noncomputable def vertexAngle (n i : Nat) : ℝ :=
  2 * Real.pi * i / n - Real.pi / 2

/-- Vertex `i`'s centre: the canvas centre for a 1-vertex graph, else the
point at `vertexAngle` on the circle of radius `r` around `(cx, cy)`. -/
noncomputable def vertexPos (n i : Nat) (cx cy r : ℝ) : ℝ × ℝ :=
  if n = 1 then (cx, cy)
  else (cx + r * Real.cos (vertexAngle n i), cy + r * Real.sin (vertexAngle n i))

/-- `draw_graph`: the positioned vertices `0 .. n-1` and the stored edges
that are actually drawn (those whose endpoints are both valid ids). -/
noncomputable def draw_graph (n : Nat) (edges : List Edge)
    (width height : Nat) : List (Nat × ℝ × ℝ) × List Edge :=
  let cx : ℝ := ((width / 2 : Nat) : ℝ)
  let cy : ℝ := ((height / 2 : Nat) : ℝ)
  let r : ℝ := ((graphRadius width height : Nat) : ℝ)
  ((List.range n).map (fun i => (i, vertexPos n i cx cy r)),
   edges.filter (fun e => decide (e.1 < n) && decide (e.2.1 < n)))

theorem vertexAngle_spacing (n i : Nat) :
    vertexAngle n (i + 1) - vertexAngle n i = 2 * Real.pi / n := by
  unfold vertexAngle
  push_cast
  ring

/-! ### Claim C9 -/

/-- C9 (confirmed): consecutive vertices are separated by the constant
angle `2*pi/n` — for `n = 4` that is `pi/2`, i.e. 90 degrees — starting
from the top (`vertexAngle 4 0 = -pi/2`); and `draw_graph` on a 4-vertex
graph with an empty edge list on the default 1000x600 canvas positions
exactly the four vertices (centre (500, 300), radius 200) and zero
edges. -/
theorem claim9_graph_layout :
    (∀ n i : Nat, vertexAngle n (i + 1) - vertexAngle n i = 2 * Real.pi / n) ∧
    (∀ i : Nat, vertexAngle 4 (i + 1) - vertexAngle 4 i = Real.pi / 2) ∧
    vertexAngle 4 0 = -(Real.pi / 2) ∧
    (draw_graph 4 [] 1000 600).1 =
      [(0, vertexPos 4 0 500 300 200), (1, vertexPos 4 1 500 300 200),
       (2, vertexPos 4 2 500 300 200), (3, vertexPos 4 3 500 300 200)] ∧
    (draw_graph 4 [] 1000 600).2 = [] := by
  refine ⟨vertexAngle_spacing, ?_, ?_, ?_, rfl⟩
  · intro i
    rw [vertexAngle_spacing 4 i]
    norm_num
    ring
  · unfold vertexAngle
    norm_num
  · simp only [draw_graph, graphRadius]
    norm_num [List.range_succ]

end Visualizer
